import Mathlib

/-!
Verification development for the pjc2014 tournament scoring engine
(`pjc/tournament.py`): score variants, the per-round score containers,
the ranking-points algorithm and the final-ranking aggregation.

Python integers are modelled as `Int`, dictionaries keyed by team number
as insertion-ordered association lists, and fallible operations as
`Except`/`Option` values.
-/

namespace PJC

/-- MATCH_DURATION constant (seconds) from tournament.py. -/
def MATCH_DURATION : Int := 150

/-- RoboticsScore.evaluate.  The concrete robotics variants (per-match
subclasses of `RoboticsScore`) are not part of the engine source; their
`evaluate_action_credits()` and `max_action_credits()` results are taken
here as the arguments `credit` and `max_credit`, so this definition is the
body of `RoboticsScore.evaluate` itself: a time advance of
`MATCH_DURATION - total_time` is granted only when the credit equals the
maximum and the stopwatch is strictly under `MATCH_DURATION`. -/
def roboticsEvaluate (total_time credit max_credit : Int) : Int :=
  let advance : Int :=
    if credit = max_credit then
      if total_time < MATCH_DURATION then MATCH_DURATION - total_time else 0
    else 0
  credit + advance

/-- ResearchEvaluationScore: `shown` flag and the four integer sub-scores. -/
structure ResearchEvaluationScore where
  shown : Bool
  topic : Int
  research : Int
  presentation : Int
  poster : Int
deriving DecidableEq, Repr

/-- ResearchEvaluationScore.evaluate: the sum of the four sub-scores when
`shown` is true, else 0. -/
def ResearchEvaluationScore.evaluate (s : ResearchEvaluationScore) : Int :=
  if s.shown then s.topic + s.research + s.presentation + s.poster else 0

/-- JuryEvaluationScore: the single `evaluation` item. -/
structure JuryEvaluationScore where
  evaluation : Int
deriving DecidableEq, Repr

/-- JuryEvaluationScore.evaluate: the sum of the items, i.e. `evaluation`. -/
def JuryEvaluationScore.evaluate (s : JuryEvaluationScore) : Int :=
  s.evaluation

/-- Modelled from the spec: the concrete per-match robotics score variants
(subclasses of `RoboticsScore`) are not in the engine source.  A robotics
score value is modelled by its variant id together with its `total_time`
item and the two variant-determined quantities `evaluate_action_credits()`
(`credit`) and `max_action_credits()` (`max_credit`).  Research and jury
scores are the concrete classes of the source. -/
inductive ScoreValue where
  | robotics (variant : Nat) (total_time credit max_credit : Int)
  | research (s : ResearchEvaluationScore)
  | jury (s : JuryEvaluationScore)
deriving DecidableEq, Repr

/-- Dispatch of `evaluate()` over the score classes. -/
def ScoreValue.evaluate : ScoreValue → Int
  | .robotics _ tt c m => roboticsEvaluate tt c m
  | .research s => s.evaluate
  | .jury s => s.evaluate

/-- The runtime class of a score, as used by `isinstance` checks: one tag
per robotics variant, plus the research and jury classes. -/
inductive ScoreType where
  | robotics (variant : Nat)
  | research
  | jury
deriving DecidableEq, Repr

/-- Check `isinstance(score, score_type)` on score values. -/
def ScoreValue.isInstance : ScoreValue → ScoreType → Bool
  | .robotics v _ _ _, .robotics w => v == w
  | .research _, .research => true
  | .jury _, .jury => true
  | _, _ => false

/-! ### The ranking-points algorithm (`get_ranking_points`) -/

/-- Descending comparison on the points component, the key order used by
`sorted(score_points, key=itemgetter(1), reverse=True)`. -/
def rankRel (p q : Int × Int) : Prop := q.2 ≤ p.2

instance : DecidableRel rankRel := fun p q => inferInstanceAs (Decidable (q.2 ≤ p.2))

instance : IsTotal (Int × Int) rankRel := ⟨fun p q => le_total q.2 p.2⟩

instance : IsTrans (Int × Int) rankRel := ⟨fun _ _ _ h h' => le_trans h' h⟩

/-- Stable descending sort by the points component (Python `sorted` with
`key=itemgetter(1), reverse=True`). -/
def sortByPointsDesc (l : List (Int × Int)) : List (Int × Int) :=
  List.insertionSort rankRel l

/-- The loop of `get_ranking_points`: walk the sorted pairs keeping the
`rank_points` countdown, the `ex_aequo` counter and the previous
`score_points` value (`None` before the first pair). -/
def rankWalk (rank_points ex_aequo : Int) (last_score_points : Option Int) :
    List (Int × Int) → List (Int × Int)
  | [] => []
  | (team_number, score_points) :: rest =>
    if some score_points = last_score_points then
      (team_number, rank_points + (ex_aequo + 1)) ::
        rankWalk (rank_points - 1) (ex_aequo + 1) last_score_points rest
    else
      (team_number, rank_points) ::
        rankWalk (rank_points - 1) 0 (some score_points) rest

/-- get_ranking_points: sort the `(team_number, score_points)` pairs by
points descending and walk them from `rank_points = team_count`. -/
def get_ranking_points (score_points : List (Int × Int)) (team_count : Int) :
    List (Int × Int) :=
  rankWalk team_count 0 none (sortByPointsDesc score_points)

/-- Index of the first occurrence of a value in a list of score points
(used only in specification lemmas). -/
def scoreIdx (s : Int) : List Int → Nat
  | [] => 0
  | x :: xs => if x = s then 0 else scoreIdx s xs + 1

/-! ### Rounds, teams and the tournament -/

/-- Errors raised by the engine: `ValueError`, `KeyError` and the
`DuplicatedTeam` exception of tournament.py. -/
inductive PjcError where
  | valueError (msg : String)
  | keyError
  | duplicatedTeam (name : String)
deriving DecidableEq, Repr

/-- Python-dict insert on an insertion-ordered association list: an
existing key keeps its slot and gets the new value, a fresh key is
appended. -/
def dictInsert (k : Int) (v : ScoreValue) (l : List (Int × ScoreValue)) :
    List (Int × ScoreValue) :=
  if l.any (fun p => p.1 == k) then l.map (fun p => if p.1 == k then (k, v) else p)
  else l ++ [(k, v)]

/-- A Round: the declared `score_type` and the team-number-keyed score
dictionary `_scores`, modelled as an insertion-ordered association list. -/
structure Round where
  score_type : ScoreType
  scores : List (Int × ScoreValue)
deriving DecidableEq, Repr

/-- Round.add_team_score: a falsy (`None`) score or a score that is not an
instance of the declared `score_type` raises `ValueError` and leaves the
dictionary untouched; otherwise the score is stored for the team,
replacing a previous entry.  (The `assert isinstance(team_number, int)` of
the source is captured by the `Int` type of `team_number`; no positivity
check is performed.) -/
def Round.add_team_score (r : Round) (team_number : Int) (score : Option ScoreValue) :
    Except PjcError Round :=
  match score with
  | some s =>
    if s.isInstance r.score_type then
      .ok { r with scores := dictInsert team_number s r.scores }
    else
      .error (.valueError ("argument is not an instance of the score type"))
  | none => .error (.valueError ("score cannot be None"))

/-- Round.clear_team_score: `del` of the key, with `KeyError` swallowed,
so the operation is total. -/
def Round.clear_team_score (r : Round) (team_number : Int) : Round :=
  { r with scores := r.scores.filter (fun p => p.1 != team_number) }

/-- Round.get_team_score: dictionary access raising `KeyError` when the
team has no stored score. -/
def Round.get_team_score (r : Round) (team_number : Int) : Except PjcError ScoreValue :=
  match r.scores.lookup team_number with
  | some s => .ok s
  | none => .error .keyError

/-- Round.score points list: `[(team_number, score.evaluate()) ...]` over
the stored scores. -/
def Round.score_points_list (r : Round) : List (Int × Int) :=
  r.scores.map (fun p => (p.1, p.2.evaluate))

/-- Round.get_ranking_points: evaluate every stored score and delegate to
the ranking-points algorithm. -/
def Round.get_ranking_points (r : Round) (team_count : Int) : List (Int × Int) :=
  PJC.get_ranking_points r.score_points_list team_count

/-- RoundScorePoints collating pair. -/
structure RoundScorePoints where
  score : Int
  rank : Int
deriving DecidableEq, Repr

/-- Python `dict(...).get(key, default)` on an `Int`-valued association list. -/
def lookupD (l : List (Int × Int)) (k : Int) (d : Int) : Int :=
  match l.lookup k with
  | some v => v
  | none => d

/-- Python `range` as a list of `Int`: `n` values starting at `s`. -/
def intRange : Int → Nat → List Int
  | _, 0 => []
  | s, n + 1 => s :: intRange (s + 1) n

/-- Round.get_results: every team number in `[1, team_count]` mapped to
its `RoundScorePoints`, defaulting to `(0, 0)` for teams with no entry. -/
def Round.get_results (r : Round) (team_count : Int) : List (Int × RoundScorePoints) :=
  let score_points := r.score_points_list
  let ranking_points := PJC.get_ranking_points score_points team_count
  (intRange 1 team_count.toNat).map
    (fun team_number =>
      (team_number,
        RoundScorePoints.mk (lookupD score_points team_number 0)
          (lookupD ranking_points team_number 0)))

/-- ScholarLevel: the ordinals of the level enumeration, `POST_BAC = 0`
through `CM1 = 9`. -/
def ScholarLevel.POST_BAC : Int := 0

/-- ScholarLevel.CM1, the last enumeration member. -/
def ScholarLevel.CM1 : Int := 9

/-- ScholarLevel.bonus_points: the distance from `POST_BAC`. -/
def ScholarLevel.bonus_points (level : Int) : Int :=
  level - ScholarLevel.POST_BAC

/-- ScholarLevel.is_valid: the level lies within the enumeration bounds. -/
def ScholarLevel.is_valid (level : Int) : Bool :=
  ScholarLevel.POST_BAC ≤ level && level ≤ ScholarLevel.CM1

/-- Team: name and scholar level (a `namedtuple` in the source). -/
structure Team where
  name : String
  level : Int
deriving DecidableEq, Repr

/-- Time of day of the planning (hour, minute, second). -/
structure TimeOfDay where
  hour : Nat
  minute : Nat
  second : Nat
deriving DecidableEq, Repr

/-- Tournament state: the configured robotics score variants, the roster,
the planning, the robotics rounds and the research and jury rounds.  The
cached `_team_count` and `_team_numbers` of the source are kept in sync
with `_teams` by every mutator, so they are modelled as derived values. -/
structure Tournament where
  robotics_score_types : List Nat
  teams : List Team
  planning : List TimeOfDay
  robotics_rounds : List Round
  research_evaluations : Round
  jury_evaluations : Round
deriving DecidableEq, Repr

/-- Tournament construction from the robotics score-variant list: empty
roster, one empty Round per robotics variant, empty research and jury
rounds, and the default planning. -/
def Tournament.new (robotics_score_types : List Nat) : Tournament :=
  { robotics_score_types := robotics_score_types
    teams := []
    planning := [⟨14, 30, 0⟩, ⟨15, 45, 0⟩, ⟨19, 30, 0⟩, ⟨20, 30, 0⟩]
    robotics_rounds := robotics_score_types.map (fun v => Round.mk (.robotics v) [])
    research_evaluations := Round.mk .research []
    jury_evaluations := Round.mk .jury [] }

/-- Tournament.team_count. -/
def Tournament.team_count (t : Tournament) : Int :=
  t.teams.length

/-- Tournament.team_nums: `range(1, team_count + 1)`. -/
def Tournament.team_nums (t : Tournament) : List Int :=
  intRange 1 t.teams.length

/-- Tournament.add_team: raises `DuplicatedTeam` when the team is already
registered (by equality); otherwise appends the team and returns the new
team count, which is also the number assigned to the team.  The source
performs no scholar-level validation here, although its docstring
documents a `ValueError` for invalid levels. -/
def Tournament.add_team (t : Tournament) (team : Team) :
    Except PjcError (Tournament × Int) :=
  if team ∈ t.teams then .error (.duplicatedTeam team.name)
  else
    let t' := { t with teams := t.teams ++ [team] }
    .ok (t', t'.team_count)

/-! ### Tournament aggregation and the final ranking -/

/-- Accumulation step of `get_robotics_results`: add the points to the
team's running total, or create the entry. -/
def addPoints (l : List (Int × Int)) (k : Int) (v : Int) : List (Int × Int) :=
  if l.any (fun p => p.1 == k) then
    l.map (fun p => if p.1 == k then (p.1, p.2 + v) else p)
  else l ++ [(k, v)]

/-- Tournament robotics running totals: per-round ranking points summed
over the robotics rounds, team by team. -/
def Tournament.robotics_totals (t : Tournament) : List (Int × Int) :=
  t.robotics_rounds.foldl
    (fun acc r =>
      (r.get_ranking_points t.team_count).foldl (fun a p => addPoints a p.1 p.2) acc)
    []

/-- Python `dict.get(team_num, RoundScorePoints(0, 0))`. -/
def lookupRSP (l : List (Int × RoundScorePoints)) (k : Int) : RoundScorePoints :=
  match l.lookup k with
  | some v => v
  | none => RoundScorePoints.mk 0 0

/-- Tournament.get_robotics_results: the summed per-round ranking points
and the final robotics ranking points obtained by running the
ranking-points algorithm once more over the sums. -/
def Tournament.get_robotics_results (t : Tournament) : List (Int × RoundScorePoints) :=
  t.team_nums.map
    (fun n =>
      (n, RoundScorePoints.mk (lookupD t.robotics_totals n 0)
        (lookupD (PJC.get_ranking_points t.robotics_totals t.team_count) n 0)))

/-- Tournament.get_research_evaluation_results: delegation to the research
Round. -/
def Tournament.get_research_evaluation_results (t : Tournament) :
    List (Int × RoundScorePoints) :=
  t.research_evaluations.get_results t.team_count

/-- Tournament.get_team_evaluation_results: delegation to the jury Round. -/
def Tournament.get_team_evaluation_results (t : Tournament) :
    List (Int × RoundScorePoints) :=
  t.jury_evaluations.get_results t.team_count

/-- Python `enumerate(teams, start=n)` with the counter as `Int`. -/
def enum1 : Int → List Team → List (Int × Team)
  | _, [] => []
  | n, tm :: ts => (n, tm) :: enum1 (n + 1) ts

/-- The combined totals of `get_final_ranking`: for every registered team,
the robotics final rank plus the research rank plus the jury rank plus the
scholar-level bonus. -/
def Tournament.final_totals (t : Tournament) : List (Int × Int) :=
  (enum1 1 t.teams).map
    (fun p =>
      (p.1,
        (lookupRSP t.get_robotics_results p.1).rank +
        (lookupRSP t.get_research_evaluation_results p.1).rank +
        (lookupRSP t.get_team_evaluation_results p.1).rank +
        ScholarLevel.bonus_points p.2.level))

/-- The rearrangement loop of `get_final_ranking`: walk the pairs keeping
the position counter `rank`, the open group (`rank_list`, reversed) with
its assigned rank `cur_rank`, and the previous points value. -/
def regroupWalk (rank last_pts : Int) (rank_list : List Int) (cur_rank : Int) :
    List (Int × Int) → List (Int × List Int)
  | [] => [(cur_rank, rank_list.reverse)]
  | (team_num, pts) :: rest =>
    if pts = last_pts then
      regroupWalk (rank + 1) last_pts (team_num :: rank_list) cur_rank rest
    else
      (cur_rank, rank_list.reverse) :: regroupWalk (rank + 1) pts [team_num] rank rest

/-- Grouping of the globally-ranked pairs into `(rank, [team_numbers])`
entries, ties sharing one entry. -/
def regroup : List (Int × Int) → List (Int × List Int)
  | [] => []
  | (team_num, pts) :: rest => regroupWalk 2 pts [team_num] 1 rest

/-- Tournament.get_final_ranking: run the ranking-points algorithm over
the combined totals, sort the result by points descending, and group. -/
def Tournament.get_final_ranking (t : Tournament) : List (Int × List Int) :=
  regroup (sortByPointsDesc (PJC.get_ranking_points t.final_totals t.team_count))

/-- The rank of each entry after the first exceeds the previous entry's
rank by the previous group size. -/
def rankChain : List (Int × List Int) → Prop
  | [] => True
  | [_] => True
  | a :: b :: rest => b.1 = a.1 + (a.2.length : Int) ∧ rankChain (b :: rest)

/-- First group of the regrouped list. -/
def headGroup : List (Int × List Int) → List Int
  | [] => []
  | x :: _ => x.2

/-! ### Serialization: `as_dict` / `from_dict` -/

/-- The `as_dict()` image of a score: its `items` (field values).  The
class itself is not part of the dictionary; reconstruction picks the class
from the Tournament's configured score types.  One record shape per score
class. -/
inductive ScoreDict where
  | robotics (total_time credit max_credit : Int)
  | research (shown : Bool) (topic research presentation poster : Int)
  | jury (evaluation : Int)
deriving DecidableEq, Repr

/-- Score.as_dict: the items of the score value. -/
def ScoreValue.as_dict : ScoreValue → ScoreDict
  | .robotics _ tt c m => .robotics tt c m
  | .research s => .research s.shown s.topic s.research s.presentation s.poster
  | .jury s => .jury s.evaluation

/-- Reconstruction `score_type(**score_dict)`: construct a score of the given class from
stored items; fails (`TypeError` on keyword splatting) when the item shape
does not fit the class. -/
def scoreFromDict : ScoreType → ScoreDict → Option ScoreValue
  | .robotics v, .robotics tt c m => some (.robotics v tt c m)
  | .research, .research sh t r p po => some (.research ⟨sh, t, r, p, po⟩)
  | .jury, .jury e => some (.jury ⟨e⟩)
  | _, _ => none

/-- Round.as_dict: team number to score items. -/
def Round.as_dict (r : Round) : List (Int × ScoreDict) :=
  r.scores.map (fun p => (p.1, p.2.as_dict))

/-- Tournament.as_dict output: teams (as objects, the source stores the
`Team` namedtuples directly), planning, and the per-round score
dictionaries.  The `HH:MM:SS` text encoding of the planning times (and its
`strptime` inverse in `from_dict`) is a bijective formatting detail not
modelled; planning enters no ranking computation. -/
structure TournamentDict where
  teams : List Team
  planning : List TimeOfDay
  robotics_rounds : List (List (Int × ScoreDict))
  research_evaluations : List (Int × ScoreDict)
  jury_evaluations : List (Int × ScoreDict)
deriving DecidableEq, Repr

/-- Tournament.as_dict. -/
def Tournament.as_dict (t : Tournament) : TournamentDict :=
  { teams := t.teams
    planning := t.planning
    robotics_rounds := t.robotics_rounds.map Round.as_dict
    research_evaluations := t.research_evaluations.as_dict
    jury_evaluations := t.jury_evaluations.as_dict }

/-- The score-loading loop of `from_dict`: reconstruct each stored score
with the given class and add it to the round; any reconstruction or
add failure aborts. -/
def addScoresFromDict (score_type : ScoreType) (r : Round) :
    List (Int × ScoreDict) → Option Round
  | [] => some r
  | (team_num, sd) :: rest =>
    match scoreFromDict score_type sd with
    | some score =>
      match r.add_team_score team_num (some score) with
      | .ok r' => addScoresFromDict score_type r' rest
      | .error _ => none
    | none => none

/-- The robotics-round rebuilding loop of `from_dict`: for
`round_num, score_type in enumerate(self._robotics_score_types, start=1)`,
take `rounds_dict[round_num - 1]` and load a fresh Round of that type. -/
def buildRounds (d_rounds : List (List (Int × ScoreDict))) :
    Nat → List Nat → Option (List Round)
  | _, [] => some []
  | round_num, v :: vs =>
    match d_rounds.get? (round_num - 1) with
    | some scores =>
      match addScoresFromDict (.robotics v) (Round.mk (.robotics v) []) scores with
      | some r =>
        match buildRounds d_rounds (round_num + 1) vs with
        | some rs => some (r :: rs)
        | none => none
      | none => none
    | none => none

/-- Tournament.load_teams: rebuild each `Team` from its (name, level). -/
def Tournament.load_teams (t : Tournament) (data : List Team) : Tournament :=
  { t with teams := data.map (fun p => Team.mk p.name p.level) }

/-- Tournament.from_dict: load the teams and the planning, rebuild the
robotics rounds from the configured score types, and add the research and
jury scores into the existing (empty on a fresh tournament) rounds. -/
def Tournament.from_dict (t : Tournament) (d : TournamentDict) : Option Tournament :=
  let t1 := t.load_teams d.teams
  match buildRounds d.robotics_rounds 1 t.robotics_score_types with
  | some robotics_rounds =>
    match addScoresFromDict .research t.research_evaluations d.research_evaluations with
    | some research =>
      match addScoresFromDict .jury t.jury_evaluations d.jury_evaluations with
      | some jury =>
        some { t1 with
                planning := d.planning
                robotics_rounds := robotics_rounds
                research_evaluations := research
                jury_evaluations := jury }
      | none => none
    | none => none
  | none => none

/-- Well-formedness invariant of a Round maintained by `add_team_score` /
`clear_team_score`: distinct keys (it models a dict) and every stored
score an instance of the declared type. -/
def Round.wf (r : Round) : Prop :=
  (r.scores.map Prod.fst).Nodup ∧ ∀ p ∈ r.scores, p.2.isInstance r.score_type = true

/-- Well-formedness invariant of a Tournament reachable from the
constructor: one robotics round per configured type, each of its type and
well-formed, and research/jury rounds of their fixed types. -/
def Tournament.wf (t : Tournament) : Prop :=
  t.robotics_score_types.length = t.robotics_rounds.length
  ∧ (∀ q ∈ t.robotics_score_types.zip t.robotics_rounds,
      q.2.score_type = ScoreType.robotics q.1 ∧ q.2.wf)
  ∧ t.research_evaluations.score_type = ScoreType.research
  ∧ t.research_evaluations.wf
  ∧ t.jury_evaluations.score_type = ScoreType.jury
  ∧ t.jury_evaluations.wf

/-- A sample tournament used to instantiate the round-trip theorem. -/
def sampleTournament : Tournament :=
  { robotics_score_types := [0]
    teams := [Team.mk ("A") 3, Team.mk ("B") 9]
    planning := [TimeOfDay.mk 14 30 0]
    robotics_rounds := [Round.mk (.robotics 0) [(1, .robotics 0 90 8 8)]]
    research_evaluations := Round.mk .research [(2, .research ⟨true, 5, 10, 8, 7⟩)]
    jury_evaluations := Round.mk .jury [(1, .jury ⟨12⟩)] }

/-! ### Theorems -/

theorem rankWalk_length (w : List (Int × Int)) :
    ∀ (rp ea : Int) (last : Option Int), (rankWalk rp ea last w).length = w.length := by
  induction w with
  | nil => intro rp ea last; rfl
  | cons p rest ih =>
    intro rp ea last
    obtain ⟨tn, sp⟩ := p
    by_cases h : some sp = last <;> simp [rankWalk, h, ih]

theorem rankWalk_map_fst (w : List (Int × Int)) :
    ∀ (rp ea : Int) (last : Option Int),
      (rankWalk rp ea last w).map Prod.fst = w.map Prod.fst := by
  induction w with
  | nil => intro rp ea last; rfl
  | cons p rest ih =>
    intro rp ea last
    obtain ⟨tn, sp⟩ := p
    by_cases h : some sp = last <;> simp [rankWalk, h, ih]

theorem scoreIdx_cons_self (s : Int) (xs : List Int) : scoreIdx s (s :: xs) = 0 := by
  simp [scoreIdx]

theorem scoreIdx_cons_ne (s x : Int) (xs : List Int) (h : x ≠ s) :
    scoreIdx s (x :: xs) = scoreIdx s xs + 1 := by
  simp [scoreIdx, h]

theorem rankWalk_cons_tie (rp ea tn sp : Int) (rest : List (Int × Int)) :
    rankWalk rp ea (some sp) ((tn, sp) :: rest) =
      (tn, rp + (ea + 1)) :: rankWalk (rp - 1) (ea + 1) (some sp) rest := by
  simp [rankWalk]

theorem rankWalk_cons_new (rp ea tn sp : Int) (last : Option Int)
    (rest : List (Int × Int)) (h : some sp ≠ last) :
    rankWalk rp ea last ((tn, sp) :: rest) =
      (tn, rp) :: rankWalk (rp - 1) 0 (some sp) rest := by
  simp [rankWalk, h]

/-- On a list sorted descendingly whose every element is at most `s`, the
walk entered with `last = some s` and counter `ea` yields, for each pair,
the team number with ranking points `rp + ea + 1` if its points tie `s`,
and `rp - scoreIdx` of its points in the walked list otherwise. -/
theorem rankWalk_sorted_eq (w : List (Int × Int)) (hw : w.Sorted rankRel) :
    ∀ (rp ea s : Int), (∀ x ∈ w, x.2 ≤ s) →
      rankWalk rp ea (some s) w =
        w.map (fun p =>
          (p.1, if p.2 = s then rp + ea + 1
                else rp - scoreIdx p.2 (w.map Prod.snd))) := by
  induction w with
  | nil => intro rp ea s _; rfl
  | cons p rest ih =>
    intro rp ea s hle
    obtain ⟨tn, sp⟩ := p
    rw [List.sorted_cons] at hw
    obtain ⟨hhd, hrest⟩ := hw
    have hsp : sp ≤ s := hle (tn, sp) (List.mem_cons_self _ _)
    by_cases h : sp = s
    · -- tie with the running value: extend the ex-aequo block
      subst h
      have hrec := ih hrest (rp - 1) (ea + 1) sp
        (fun x hx => hle x (List.mem_cons_of_mem _ hx))
      rw [rankWalk_cons_tie, hrec, List.map_cons]
      refine List.cons_eq_cons.mpr ⟨?_, ?_⟩
      · have harith : rp + (ea + 1) = rp + ea + 1 := by ring
        simp [harith]
      · refine List.map_congr_left ?_
        intro a ha
        by_cases ha2 : a.2 = sp
        · simp only [Prod.mk.injEq, true_and]
          rw [if_pos ha2, if_pos ha2]
          ring
        · have hidx : scoreIdx a.2 (sp :: rest.map Prod.snd) =
              scoreIdx a.2 (rest.map Prod.snd) + 1 :=
            scoreIdx_cons_ne _ _ _ (fun hs => ha2 hs.symm)
          simp only [List.map_cons, if_neg ha2, hidx, Prod.mk.injEq, true_and]
          push_cast
          ring
    · -- new (strictly lower) value: the block restarts at this pair
      have hlt : sp < s := lt_of_le_of_ne hsp h
      have hrec := ih hrest (rp - 1) 0 sp (fun x hx => hhd x hx)
      rw [rankWalk_cons_new rp ea tn sp (some s) rest
        (fun hs => h (Option.some.injEq _ _ ▸ hs)), hrec, List.map_cons]
      refine List.cons_eq_cons.mpr ⟨?_, ?_⟩
      · simp only [if_neg h, List.map_cons, scoreIdx_cons_self, Nat.cast_zero, sub_zero]
      · refine List.map_congr_left ?_
        intro a ha
        have haz : a.2 ≠ s := by
          have := hhd a ha
          exact fun hs => absurd (hs ▸ this) (not_le_of_lt hlt)
        by_cases ha2 : a.2 = sp
        · simp only [Prod.mk.injEq, true_and]
          rw [if_pos ha2, if_neg haz, ha2, List.map_cons, scoreIdx_cons_self]
          push_cast
          ring
        · have hidx : scoreIdx a.2 (sp :: rest.map Prod.snd) =
              scoreIdx a.2 (rest.map Prod.snd) + 1 :=
            scoreIdx_cons_ne _ _ _ (fun hs => ha2 hs.symm)
          simp only [if_neg ha2, if_neg haz, List.map_cons, hidx, Prod.mk.injEq, true_and]
          push_cast
          ring

/-- Fresh walk (`last_score_points = None`, `ex_aequo = 0`) on a sorted
list: each pair receives `rp` minus the index of the first occurrence of
its points value. -/
theorem rankWalk_none_eq (w : List (Int × Int)) (hw : w.Sorted rankRel) (rp : Int) :
    rankWalk rp 0 none w =
      w.map (fun p => (p.1, rp - scoreIdx p.2 (w.map Prod.snd))) := by
  cases w with
  | nil => rfl
  | cons p rest =>
    obtain ⟨tn, sp⟩ := p
    rw [List.sorted_cons] at hw
    obtain ⟨hhd, hrest⟩ := hw
    have hrec := rankWalk_sorted_eq rest hrest (rp - 1) 0 sp (fun x hx => hhd x hx)
    rw [rankWalk_cons_new rp 0 tn sp none rest (Option.some_ne_none sp), hrec, List.map_cons]
    refine List.cons_eq_cons.mpr ⟨?_, ?_⟩
    · simp only [List.map_cons, scoreIdx_cons_self, Nat.cast_zero, sub_zero]
    · refine List.map_congr_left ?_
      intro a ha
      by_cases ha2 : a.2 = sp
      · simp only [Prod.mk.injEq, true_and]
        rw [if_pos ha2, ha2, List.map_cons, scoreIdx_cons_self]
        push_cast
        ring
      · have hidx : scoreIdx a.2 (sp :: rest.map Prod.snd) =
            scoreIdx a.2 (rest.map Prod.snd) + 1 :=
          scoreIdx_cons_ne _ _ _ (fun hs => ha2 hs.symm)
        simp only [if_neg ha2, List.map_cons, hidx, Prod.mk.injEq, true_and]
        push_cast
        ring

theorem sortByPointsDesc_sorted (l : List (Int × Int)) :
    (sortByPointsDesc l).Sorted rankRel :=
  List.sorted_insertionSort rankRel l

theorem sortByPointsDesc_perm (l : List (Int × Int)) :
    (sortByPointsDesc l).Perm l :=
  List.perm_insertionSort rankRel l

/-- Characterization of `get_ranking_points`: with `w` the descending
stable sort of the input, the pair at each position of `w` is mapped to
its team number and `team_count` minus the index of the first occurrence
of its points value in `w`. -/
theorem get_ranking_points_eq (sp : List (Int × Int)) (N : Int) :
    get_ranking_points sp N =
      (sortByPointsDesc sp).map (fun p =>
        (p.1, N - scoreIdx p.2 ((sortByPointsDesc sp).map Prod.snd))) :=
  rankWalk_none_eq (sortByPointsDesc sp) (sortByPointsDesc_sorted sp) N

theorem scoreIdx_lt_length (s : Int) (l : List Int) (h : s ∈ l) :
    scoreIdx s l < l.length := by
  induction l with
  | nil => cases h
  | cons x xs ih =>
    by_cases hx : x = s
    · rw [scoreIdx, if_pos hx]
      exact Nat.succ_pos _
    · rw [scoreIdx, if_neg hx, List.length_cons]
      have hmem : s ∈ xs := by
        rcases List.mem_cons.mp h with h1 | h2
        · exact absurd h1.symm hx
        · exact h2
      exact Nat.succ_lt_succ (ih hmem)

theorem scoreIdx_get (s : Int) (l : List Int) (h : s ∈ l)
    (hlt : scoreIdx s l < l.length) : l.get ⟨scoreIdx s l, hlt⟩ = s := by
  induction l with
  | nil => cases h
  | cons x xs ih =>
    by_cases hx : x = s
    · have h0 : scoreIdx s (x :: xs) = 0 := by rw [scoreIdx, if_pos hx]
      revert hlt
      rw [h0]
      intro hlt
      exact hx
    · have hmem : s ∈ xs := by
        rcases List.mem_cons.mp h with h1 | h2
        · exact absurd h1.symm hx
        · exact h2
      have hstep : scoreIdx s (x :: xs) = scoreIdx s xs + 1 := by rw [scoreIdx, if_neg hx]
      revert hlt
      rw [hstep]
      intro hlt
      rw [List.get_cons_succ]
      exact ih hmem _

theorem get_ne_of_lt_scoreIdx (s : Int) (l : List Int) (m : Nat)
    (hm : m < scoreIdx s l) (hml : m < l.length) : l.get ⟨m, hml⟩ ≠ s := by
  induction l generalizing m with
  | nil => cases hml
  | cons x xs ih =>
    by_cases hx : x = s
    · rw [scoreIdx, if_pos hx] at hm
      cases hm
    · rw [scoreIdx, if_neg hx] at hm
      cases m with
      | zero => exact hx
      | succ m' =>
        rw [List.get_cons_succ]
        exact ih m' (Nat.lt_of_succ_lt_succ hm) _

theorem scoreIdx_eq_of_first (s : Int) (l : List Int) (n : Nat) (hn : n < l.length)
    (hget : l.get ⟨n, hn⟩ = s)
    (hfirst : ∀ m (hm : m < n), l.get ⟨m, Nat.lt_trans hm hn⟩ ≠ s) :
    scoreIdx s l = n := by
  induction l generalizing n with
  | nil => cases hn
  | cons x xs ih =>
    cases n with
    | zero =>
      have hx : x = s := hget
      rw [scoreIdx, if_pos hx]
    | succ n' =>
      have hx : x ≠ s := hfirst 0 (Nat.succ_pos _)
      rw [scoreIdx, if_neg hx]
      have hn' : n' < xs.length := Nat.lt_of_succ_lt_succ hn
      have hget' : xs.get ⟨n', hn'⟩ = s := by
        rw [← hget]
        exact (@List.get_cons_succ _ n' x xs hn).symm
      have hfirst' : ∀ m (hm : m < n'), xs.get ⟨m, Nat.lt_trans hm hn'⟩ ≠ s := by
        intro m hm
        have := hfirst (m + 1) (Nat.succ_lt_succ hm)
        rw [List.get_cons_succ] at this
        exact this
      rw [ih n' hn' hget' hfirst']

/-- On a list sorted in descending order, the first occurrence of a
strictly greater value is not after the first occurrence of a smaller one. -/
theorem scoreIdx_le_of_sorted (l : List Int) (hs : l.Sorted (fun a b => b ≤ a))
    (s1 s2 : Int) (h1 : s1 ∈ l) (h2 : s2 ∈ l) (hlt : s2 < s1) :
    scoreIdx s1 l ≤ scoreIdx s2 l := by
  by_contra hcon
  push_neg at hcon
  have hl1 : scoreIdx s1 l < l.length := scoreIdx_lt_length _ _ h1
  have hl2 : scoreIdx s2 l < l.length := scoreIdx_lt_length _ _ h2
  have hg1 : l.get ⟨scoreIdx s1 l, hl1⟩ = s1 := scoreIdx_get _ _ h1 hl1
  have hg2 : l.get ⟨scoreIdx s2 l, hl2⟩ = s2 := scoreIdx_get _ _ h2 hl2
  have hrel := @List.Sorted.rel_get_of_lt _ _ _ hs ⟨scoreIdx s2 l, hl2⟩
    ⟨scoreIdx s1 l, hl1⟩ hcon
  rw [hg1, hg2] at hrel
  exact absurd hrel (not_le_of_lt hlt)

/-- The points components of the sorted pair list are sorted descendingly. -/
theorem sortByPointsDesc_snd_sorted (l : List (Int × Int)) :
    ((sortByPointsDesc l).map Prod.snd).Sorted (fun a b => b ≤ a) :=
  List.Pairwise.map Prod.snd (fun _ _ h => h) (sortByPointsDesc_sorted l)

/-- In a pair list with pairwise-distinct first components, the second
component is a function of the first. -/
theorem key_functional (l : List (Int × Int)) (h : (l.map Prod.fst).Nodup) :
    ∀ t s s', (t, s) ∈ l → (t, s') ∈ l → s = s' := by
  induction l with
  | nil =>
    intro t s s' h1
    cases h1
  | cons p rest ih =>
    intro t s s' h1 h2
    rw [List.map_cons, List.nodup_cons] at h
    obtain ⟨hp, hrest⟩ := h
    rcases List.mem_cons.mp h1 with e1 | m1 <;> rcases List.mem_cons.mp h2 with e2 | m2
    · rw [← e2] at e1
      exact (Prod.mk.injEq t s t s').mp e1 |>.2
    · exfalso
      refine hp ?_
      have ht : t ∈ List.map Prod.fst rest := List.mem_map.mpr ⟨(t, s'), m2, rfl⟩
      rw [← e1]
      exact ht
    · exfalso
      refine hp ?_
      have ht : t ∈ List.map Prod.fst rest := List.mem_map.mpr ⟨(t, s), m1, rfl⟩
      rw [← e2]
      exact ht
    · exact ih hrest t s s' m1 m2

theorem get_ranking_points_get? (sp : List (Int × Int)) (N : Int) (i : Nat)
    (hi : i < (sortByPointsDesc sp).length) :
    (get_ranking_points sp N).get? i =
      some (((sortByPointsDesc sp).get ⟨i, hi⟩).1,
        N - scoreIdx ((sortByPointsDesc sp).get ⟨i, hi⟩).2
              ((sortByPointsDesc sp).map Prod.snd)) := by
  rw [get_ranking_points_eq, List.get?_map, List.get?_eq_get hi]
  rfl

theorem get_ranking_points_get (sp : List (Int × Int)) (N : Int) (i : Nat)
    (hi : i < (sortByPointsDesc sp).length) (hi' : i < (get_ranking_points sp N).length) :
    (get_ranking_points sp N).get ⟨i, hi'⟩ =
      (((sortByPointsDesc sp).get ⟨i, hi⟩).1,
        N - scoreIdx ((sortByPointsDesc sp).get ⟨i, hi⟩).2
              ((sortByPointsDesc sp).map Prod.snd)) := by
  have h1 := @List.get?_eq_get _ (get_ranking_points sp N) i hi'
  have h2 := get_ranking_points_get? sp N i hi
  rw [h1] at h2
  exact Option.some.inj h2

theorem mem_get_ranking_points (sp : List (Int × Int)) (N : Int) (q : Int × Int) :
    q ∈ get_ranking_points sp N ↔
      ∃ p ∈ sortByPointsDesc sp,
        q = (p.1, N - scoreIdx p.2 ((sortByPointsDesc sp).map Prod.snd)) := by
  rw [get_ranking_points_eq, List.mem_map]
  constructor
  · rintro ⟨p, hp, rfl⟩
    exact ⟨p, hp, rfl⟩
  · rintro ⟨p, hp, rfl⟩
    exact ⟨p, hp, rfl⟩

/-- With pairwise-distinct team numbers, the ranking points of a team are
determined by its points value through `scoreIdx` on the sorted walk. -/
theorem rank_value_of_mem (sp : List (Int × Int)) (N : Int)
    (hnodup : (sp.map Prod.fst).Nodup) (t s r : Int)
    (hts : (t, s) ∈ sp) (htr : (t, r) ∈ get_ranking_points sp N) :
    r = N - scoreIdx s ((sortByPointsDesc sp).map Prod.snd) ∧
      s ∈ (sortByPointsDesc sp).map Prod.snd := by
  obtain ⟨p, hp, heq⟩ := (mem_get_ranking_points sp N (t, r)).mp htr
  obtain ⟨h1, h2⟩ := Prod.mk.injEq .. ▸ heq
  have hpsp : p ∈ sp := (sortByPointsDesc_perm sp).mem_iff.mp hp
  have hps : (t, p.2) ∈ sp := by
    have hpe : p = (t, p.2) := by
      rw [h1]
    rw [← hpe]
    exact hpsp
  have hs : p.2 = s := key_functional sp hnodup t p.2 s hps hts
  constructor
  · rw [h2, hs]
  · rw [← hs]
    exact List.mem_map_of_mem Prod.snd hp

/-- C1: equal raw points receive equal ranking points; the pair following a
tied block of size `k` beginning at position `p` of the descending walk
receives `N - p - k`; and the worked example from the specification. -/
theorem ranking_points_tie_invariant :
    (∀ (sp : List (Int × Int)) (N : Int) (i j : Nat)
        (hi : i < (sortByPointsDesc sp).length) (hj : j < (sortByPointsDesc sp).length)
        (hi' : i < (get_ranking_points sp N).length)
        (hj' : j < (get_ranking_points sp N).length),
        ((sortByPointsDesc sp).get ⟨i, hi⟩).2 = ((sortByPointsDesc sp).get ⟨j, hj⟩).2 →
        ((get_ranking_points sp N).get ⟨i, hi'⟩).2 =
          ((get_ranking_points sp N).get ⟨j, hj'⟩).2)
    ∧ (∀ (sp : List (Int × Int)) (N : Int) (p k : Nat)
        (hpk : p + k < (sortByPointsDesc sp).length) (hk : 0 < k)
        (ho : p + k < (get_ranking_points sp N).length),
        (∀ m (hm1 : p ≤ m) (hm2 : m < p + k),
          ((sortByPointsDesc sp).get ⟨m, Nat.lt_trans hm2 hpk⟩).2 =
            ((sortByPointsDesc sp).get ⟨p,
              Nat.lt_trans (Nat.lt_add_of_pos_right hk) hpk⟩).2) →
        ((sortByPointsDesc sp).get ⟨p + k, hpk⟩).2 ≠
          ((sortByPointsDesc sp).get ⟨p,
            Nat.lt_trans (Nat.lt_add_of_pos_right hk) hpk⟩).2 →
        ((get_ranking_points sp N).get ⟨p + k, ho⟩).2 = N - p - k)
    ∧ get_ranking_points [(1, 50), (2, 50), (3, 30), (4, 10)] 4 =
        [(1, 4), (2, 4), (3, 2), (4, 1)] := by
  refine ⟨?_, ?_, by decide⟩
  · intro sp N i j hi hj hi' hj' h
    rw [get_ranking_points_get sp N i hi hi', get_ranking_points_get sp N j hj hj']
    simp only [h]
  · intro sp N p k hpk hk ho hblock hbreak
    have hp : p < (sortByPointsDesc sp).length :=
      Nat.lt_trans (Nat.lt_add_of_pos_right hk) hpk
    rw [get_ranking_points_get sp N (p + k) hpk ho]
    have hn : p + k < ((sortByPointsDesc sp).map Prod.snd).length := by
      rw [List.length_map]
      exact hpk
    have hidx : scoreIdx ((sortByPointsDesc sp).get ⟨p + k, hpk⟩).2
        ((sortByPointsDesc sp).map Prod.snd) = p + k := by
      apply scoreIdx_eq_of_first _ _ (p + k) hn
      · rw [List.get_map]
      · intro m hm
        have hmw : m < (sortByPointsDesc sp).length := Nat.lt_trans hm hpk
        rw [List.get_map]
        intro heq0
        have heq : ((sortByPointsDesc sp).get ⟨m, hmw⟩).2 =
            ((sortByPointsDesc sp).get ⟨p + k, hpk⟩).2 := heq0
        have hk1 : p + k - 1 < (sortByPointsDesc sp).length := by omega
        have hble : ((sortByPointsDesc sp).get ⟨p + k - 1, hk1⟩).2 =
            ((sortByPointsDesc sp).get ⟨p,
              Nat.lt_trans (Nat.lt_add_of_pos_right hk) hpk⟩).2 := by
          have := hblock (p + k - 1) (by omega) (by omega)
          exact this
        have hrel2 : ((sortByPointsDesc sp).get ⟨p + k, hpk⟩).2 ≤
            ((sortByPointsDesc sp).get ⟨p + k - 1, hk1⟩).2 :=
          @List.Sorted.rel_get_of_lt _ _ _ (sortByPointsDesc_sorted sp)
            ⟨p + k - 1, hk1⟩ ⟨p + k, hpk⟩ (by simp only [Fin.mk_lt_mk]; omega)
        rcases Nat.lt_or_ge m (p + k - 1) with hm1 | hm2
        · have hrel1 : ((sortByPointsDesc sp).get ⟨p + k - 1, hk1⟩).2 ≤
              ((sortByPointsDesc sp).get ⟨m, hmw⟩).2 :=
            @List.Sorted.rel_get_of_lt _ _ _ (sortByPointsDesc_sorted sp)
              ⟨m, hmw⟩ ⟨p + k - 1, hk1⟩ (by simp only [Fin.mk_lt_mk]; omega)
          rw [heq] at hrel1
          have hmid : ((sortByPointsDesc sp).get ⟨p + k - 1, hk1⟩).2 =
              ((sortByPointsDesc sp).get ⟨p + k, hpk⟩).2 :=
            le_antisymm hrel1 hrel2
          exact hbreak (by rw [← hmid, hble])
        · have hbm : ((sortByPointsDesc sp).get ⟨m, hmw⟩).2 =
              ((sortByPointsDesc sp).get ⟨p,
                Nat.lt_trans (Nat.lt_add_of_pos_right hk) hpk⟩).2 := by
            have := hblock m (by omega) hm
            exact this
          rw [heq] at hbm
          exact hbreak hbm
    rw [hidx]
    push_cast
    ring

/-- C1 witness: in the worked example, the two teams tied on 50 raw points
(positions 0 and 1 of the sorted walk) receive equal ranking points. -/
theorem ranking_points_tie_invariant_witness :
    ((get_ranking_points [(1, 50), (2, 50), (3, 30), (4, 10)] 4).get ⟨0, by decide⟩).2 =
      ((get_ranking_points [(1, 50), (2, 50), (3, 30), (4, 10)] 4).get ⟨1, by decide⟩).2 :=
  ranking_points_tie_invariant.1 [(1, 50), (2, 50), (3, 30), (4, 10)] 4 0 1
    (by decide) (by decide) (by decide) (by decide) (by decide)

/-- C2: under distinct team numbers and at most `N` entries, ranking points
lie in `[1, N]`, the team(s) with the highest raw points receive exactly
`N`, and strictly higher raw points never yield lower ranking points. -/
theorem ranking_points_range_max_monotonic
    (sp : List (Int × Int)) (N : Int) (hN : 1 ≤ N)
    (hnodup : (sp.map Prod.fst).Nodup) (hlen : (sp.length : Int) ≤ N) :
    (∀ q ∈ get_ranking_points sp N, 1 ≤ q.2 ∧ q.2 ≤ N)
    ∧ (∀ t s r, (t, s) ∈ sp → (t, r) ∈ get_ranking_points sp N →
        (∀ x ∈ sp, x.2 ≤ s) → r = N)
    ∧ (∀ t1 s1 r1 t2 s2 r2, (t1, s1) ∈ sp → (t2, s2) ∈ sp →
        (t1, r1) ∈ get_ranking_points sp N → (t2, r2) ∈ get_ranking_points sp N →
        s2 < s1 → r2 ≤ r1) := by
  have hlw : (sortByPointsDesc sp).length = sp.length :=
    (sortByPointsDesc_perm sp).length_eq
  refine ⟨?_, ?_, ?_⟩
  · intro q hq
    obtain ⟨p, hp, rfl⟩ := (mem_get_ranking_points sp N q).mp hq
    have hmem : p.2 ∈ (sortByPointsDesc sp).map Prod.snd := List.mem_map_of_mem Prod.snd hp
    have hidx : scoreIdx p.2 ((sortByPointsDesc sp).map Prod.snd) <
        ((sortByPointsDesc sp).map Prod.snd).length :=
      scoreIdx_lt_length _ _ hmem
    rw [List.length_map, hlw] at hidx
    have hcast : (scoreIdx p.2 ((sortByPointsDesc sp).map Prod.snd) : Int) <
        (sp.length : Int) := by exact_mod_cast hidx
    constructor
    · simp only
      omega
    · have : (0 : Int) ≤ scoreIdx p.2 ((sortByPointsDesc sp).map Prod.snd) :=
        Int.natCast_nonneg _
      simp only
      omega
  · intro t s r hts htr hmax
    obtain ⟨hr, hsmem⟩ := rank_value_of_mem sp N hnodup t s r hts htr
    have hzero : scoreIdx s ((sortByPointsDesc sp).map Prod.snd) = 0 := by
      cases hw : sortByPointsDesc sp with
      | nil =>
        rw [hw] at hsmem
        cases hsmem
      | cons hd tl =>
        rw [List.map_cons]
        have hhd : hd.2 ≤ s := by
          have hmemw : hd ∈ sortByPointsDesc sp := by
            rw [hw]
            exact List.mem_cons_self hd tl
          exact hmax hd ((sortByPointsDesc_perm sp).mem_iff.mp hmemw)
        have hshd : s ≤ hd.2 := by
          rw [hw, List.map_cons] at hsmem
          rcases List.mem_cons.mp hsmem with h1 | h2
          · rw [h1]
          · have hsorted := sortByPointsDesc_snd_sorted sp
            rw [hw, List.map_cons, List.sorted_cons] at hsorted
            exact hsorted.1 s h2
        rw [scoreIdx, if_pos (le_antisymm hhd hshd)]
    rw [hr, hzero]
    simp
  · intro t1 s1 r1 t2 s2 r2 h1 h2 hr1 hr2 hlt
    obtain ⟨he1, hm1⟩ := rank_value_of_mem sp N hnodup t1 s1 r1 h1 hr1
    obtain ⟨he2, hm2⟩ := rank_value_of_mem sp N hnodup t2 s2 r2 h2 hr2
    have hle := scoreIdx_le_of_sorted ((sortByPointsDesc sp).map Prod.snd)
      (sortByPointsDesc_snd_sorted sp) s1 s2 hm1 hm2 hlt
    have hcast : (scoreIdx s1 ((sortByPointsDesc sp).map Prod.snd) : Int) ≤
        (scoreIdx s2 ((sortByPointsDesc sp).map Prod.snd) : Int) := by exact_mod_cast hle
    rw [he1, he2]
    omega

/-- C2 witness: in the worked example team 1 has ranking points inside
`[1, 4]`. -/
theorem ranking_points_range_max_monotonic_witness :
    (1 : Int) ≤ 4 ∧ (4 : Int) ≤ 4 :=
  (ranking_points_range_max_monotonic [(1, 50), (2, 50), (3, 30), (4, 10)] 4
    (by decide) (by decide) (by decide)).1 (1, 4) (by decide)

/-- C4: `RoboticsScore.evaluate` adds the time advance
`MATCH_DURATION - total_time` exactly when the action credits reach the
variant maximum and the stopwatch is strictly under `MATCH_DURATION`;
worked examples 68, 8, and credit-only. -/
theorem robotics_evaluate_time_bonus :
    (∀ total_time credit max_credit : Int,
        roboticsEvaluate total_time credit max_credit =
          credit + (if credit = max_credit ∧ total_time < MATCH_DURATION
                    then MATCH_DURATION - total_time else 0))
    ∧ MATCH_DURATION = 150
    ∧ roboticsEvaluate 90 8 8 = 68
    ∧ roboticsEvaluate 150 8 8 = 8
    ∧ (∀ total_time credit max_credit : Int, credit ≠ max_credit →
        roboticsEvaluate total_time credit max_credit = credit) := by
  refine ⟨?_, by decide, by decide, by decide, ?_⟩
  · intro tt c m
    by_cases h1 : c = m <;> by_cases h2 : tt < MATCH_DURATION <;>
      simp [roboticsEvaluate, h1, h2]
  · intro tt c m h
    simp [roboticsEvaluate, h]

/-- C4 witness: below-maximum credits at any time give the credits alone. -/
theorem robotics_evaluate_time_bonus_witness :
    (5 : Int) ≠ 8 ∧ roboticsEvaluate 90 5 8 = 5 :=
  ⟨by decide, robotics_evaluate_time_bonus.2.2.2.2 90 5 8 (by decide)⟩

/-- C6: a research evaluation score evaluates to 0 when not shown,
regardless of sub-scores, and to the sum of the four sub-scores when
shown; worked example 5+10+8+7 = 30. -/
theorem research_evaluate_spec :
    (∀ topic research presentation poster : Int,
        (ResearchEvaluationScore.mk false topic research presentation poster).evaluate = 0)
    ∧ (∀ topic research presentation poster : Int,
        (ResearchEvaluationScore.mk true topic research presentation poster).evaluate =
          topic + research + presentation + poster)
    ∧ (ResearchEvaluationScore.mk true 5 10 8 7).evaluate = 30 := by
  refine ⟨?_, ?_, by decide⟩ <;>
    intro t r p po <;> simp [ResearchEvaluationScore.evaluate]

theorem lookup_filter_ne (l : List (Int × ScoreValue)) (k : Int) :
    (l.filter (fun p => p.1 != k)).lookup k = none := by
  induction l with
  | nil => rfl
  | cons p rest ih =>
    obtain ⟨pk, pv⟩ := p
    by_cases h : pk = k
    · rw [List.filter_cons_of_neg (by simp [h])]
      exact ih
    · rw [List.filter_cons_of_pos (by simp [h]), List.lookup_cons]
      have hk : (k == pk) = false := beq_eq_false_iff_ne.mpr (fun he => h he.symm)
      rw [hk]
      exact ih

theorem filter_ne_idempotent (l : List (Int × ScoreValue)) (k : Int) :
    ((l.filter (fun p => p.1 != k)).filter (fun p => p.1 != k)) =
      l.filter (fun p => p.1 != k) := by
  rw [List.filter_filter]
  refine List.filter_congr ?_
  intro p _
  cases h : (p.1 != k) <;> simp [h]

/-- C9: clearing a team score twice equals clearing once (second clear
raises nothing), and after a clear the team's score lookup raises
`KeyError`. -/
theorem clear_team_score_spec (r : Round) (team_number : Int) :
    (r.clear_team_score team_number).clear_team_score team_number =
      r.clear_team_score team_number
    ∧ (r.clear_team_score team_number).get_team_score team_number = .error .keyError
    ∧ (r.clear_team_score team_number).scores.lookup team_number = none := by
  have hlook : (r.clear_team_score team_number).scores.lookup team_number = none := by
    unfold Round.clear_team_score
    exact lookup_filter_ne r.scores team_number
  refine ⟨?_, ?_, hlook⟩
  · unfold Round.clear_team_score
    simp only
    rw [filter_ne_idempotent]
  · unfold Round.get_team_score
    rw [hlook]

theorem lookup_map_overwrite (l : List (Int × ScoreValue)) (k : Int) (v : ScoreValue)
    (h : l.any (fun p => p.1 == k) = true) :
    (l.map (fun p => if p.1 == k then (k, v) else p)).lookup k = some v := by
  induction l with
  | nil => cases h
  | cons p rest ih =>
    obtain ⟨pk, pv⟩ := p
    rw [List.any_cons] at h
    by_cases hp : pk = k
    · have hbeq : ((pk, pv).1 == k) = true := beq_iff_eq.mpr hp
      rw [List.map_cons, if_pos hbeq, List.lookup_cons, beq_self_eq_true]
    · have hbeq : ((pk, pv).1 == k) = false := beq_eq_false_iff_ne.mpr hp
      have hrest : rest.any (fun p => p.1 == k) = true := by
        rcases Bool.or_eq_true_iff.mp h with h1 | h2
        · rw [hbeq] at h1
          cases h1
        · exact h2
      have hk : (k == pk) = false := beq_eq_false_iff_ne.mpr (fun he => hp he.symm)
      rw [List.map_cons, if_neg (by rw [hbeq]; exact Bool.false_ne_true), List.lookup_cons, hk]
      exact ih hrest

theorem lookup_append_fresh (l : List (Int × ScoreValue)) (k : Int) (v : ScoreValue)
    (h : l.any (fun p => p.1 == k) = false) :
    (l ++ [(k, v)]).lookup k = some v := by
  induction l with
  | nil => simp
  | cons p rest ih =>
    obtain ⟨pk, pv⟩ := p
    rw [List.any_cons, Bool.or_eq_false_iff] at h
    have hk : (k == pk) = false := by
      have := h.1
      refine beq_eq_false_iff_ne.mpr ?_
      intro he
      rw [he] at this
      rw [beq_self_eq_true] at this
      cases this
    rw [List.cons_append, List.lookup_cons, hk]
    exact ih h.2

theorem lookup_dictInsert_self (l : List (Int × ScoreValue)) (k : Int) (v : ScoreValue) :
    (dictInsert k v l).lookup k = some v := by
  unfold dictInsert
  by_cases h : l.any (fun p => p.1 == k) = true
  · rw [if_pos h]
    exact lookup_map_overwrite l k v h
  · rw [if_neg h]
    exact lookup_append_fresh l k v (Bool.not_eq_true _ ▸ h)

/-- C8 counterexample: `add_team_score` accepts the non-positive team
number 0 with a valid score instead of failing. -/
theorem add_team_score_accepts_nonpositive :
    (Round.mk .jury []).add_team_score 0 (some (.jury ⟨5⟩)) =
      .ok (Round.mk .jury [(0, .jury ⟨5⟩)]) := rfl

/-- C8 (amended): `add_team_score` fails with `ValueError` when the score
is `None` or not an instance of the Round's declared `score_type` (the
stored scores are untouched, the round being returned unchanged inside the
error-free path only); for any integer team number — positivity is not
checked — and a score of the declared type it stores the score, replacing
any prior entry for that team. -/
theorem add_team_score_spec (r : Round) (team_number : Int) (score : Option ScoreValue) :
    (score = none →
      r.add_team_score team_number score = .error (.valueError ("score cannot be None")))
    ∧ (∀ s, score = some s → s.isInstance r.score_type = false →
        r.add_team_score team_number score =
          .error (.valueError ("argument is not an instance of the score type")))
    ∧ (∀ s, score = some s → s.isInstance r.score_type = true →
        r.add_team_score team_number score =
          .ok { r with scores := dictInsert team_number s r.scores }
        ∧ (dictInsert team_number s r.scores).lookup team_number = some s) := by
  refine ⟨?_, ?_, ?_⟩
  · intro h
    rw [h]
    rfl
  · intro s hs hinst
    rw [hs]
    simp [Round.add_team_score, hinst]
  · intro s hs hinst
    constructor
    · rw [hs]
      simp [Round.add_team_score, hinst]
    · exact lookup_dictInsert_self r.scores team_number s

/-- C8 witness: storing a jury score for team 3 in a jury round succeeds
and the entry is retrievable. -/
theorem add_team_score_spec_witness :
    some (ScoreValue.jury ⟨7⟩) = some (ScoreValue.jury ⟨7⟩)
    ∧ (ScoreValue.jury ⟨7⟩).isInstance (Round.mk .jury []).score_type = true
    ∧ (Round.mk .jury []).add_team_score 3 (some (.jury ⟨7⟩)) =
        .ok { Round.mk .jury [] with
              scores := dictInsert 3 (.jury ⟨7⟩) (Round.mk .jury []).scores }
    ∧ (dictInsert 3 (.jury ⟨7⟩) (Round.mk .jury []).scores).lookup 3 =
        some (.jury ⟨7⟩) :=
  ⟨rfl, by decide,
    ((add_team_score_spec (Round.mk .jury []) 3 (some (.jury ⟨7⟩))).2.2
      (.jury ⟨7⟩) rfl (by decide)).1,
    ((add_team_score_spec (Round.mk .jury []) 3 (some (.jury ⟨7⟩))).2.2
      (.jury ⟨7⟩) rfl (by decide)).2⟩

/-- C7: the code accepts a team whose scholar level is outside the
enumeration bounds — `add_team` performs no level validation, although the
claim (and the function's own docstring) requires an invalid-argument
failure.  Duplicate registration is rejected, and a successful add appends
the team and returns the new team count. -/
theorem add_team_no_level_validation :
    ScholarLevel.is_valid 42 = false
    ∧ (Tournament.new [0]).add_team (Team.mk ("X") 42) =
        .ok ({ Tournament.new [0] with teams := [Team.mk ("X") 42] }, 1)
    ∧ (∀ (t : Tournament) (team : Team), team ∈ t.teams →
        t.add_team team = .error (.duplicatedTeam team.name))
    ∧ (∀ (t : Tournament) (team : Team), team ∉ t.teams →
        t.add_team team =
          .ok ({ t with teams := t.teams ++ [team] }, (t.teams.length : Int) + 1)) := by
  refine ⟨by decide, rfl, ?_, ?_⟩
  · intro t team h
    unfold Tournament.add_team
    rw [if_pos h]
  · intro t team h
    unfold Tournament.add_team
    rw [if_neg h]
    simp [Tournament.team_count]

/-- C7 witness: a fresh tournament accepts a first registration and
rejects the duplicate. -/
theorem add_team_no_level_validation_witness :
    (Team.mk ("A") 3) ∈ [Team.mk ("A") 3]
    ∧ { Tournament.new [0] with teams := [Team.mk ("A") 3] }.add_team (Team.mk ("A") 3) =
        .error (.duplicatedTeam ("A")) :=
  ⟨List.mem_cons_self _ _,
    add_team_no_level_validation.2.2.1
      { Tournament.new [0] with teams := [Team.mk ("A") 3] }
      (Team.mk ("A") 3) (List.mem_cons_self _ _)⟩

theorem regroupWalk_nil (rank lp : Int) (grp : List Int) (cur : Int) :
    regroupWalk rank lp grp cur [] = [(cur, grp.reverse)] := rfl

theorem regroupWalk_cons (rank lp : Int) (grp : List Int) (cur tn pts : Int)
    (rest : List (Int × Int)) :
    regroupWalk rank lp grp cur ((tn, pts) :: rest) =
      if pts = lp then regroupWalk (rank + 1) lp (tn :: grp) cur rest
      else (cur, grp.reverse) :: regroupWalk (rank + 1) pts [tn] rank rest := rfl

theorem regroup_cons (tn pts : Int) (rest : List (Int × Int)) :
    regroup ((tn, pts) :: rest) = regroupWalk 2 pts [tn] 1 rest := rfl

theorem regroupWalk_first (l : List (Int × Int)) :
    ∀ (rank lp : Int) (grp : List Int) (cur : Int),
      ∃ g rest', regroupWalk rank lp grp cur l = (cur, g) :: rest' := by
  induction l with
  | nil =>
    intro rank lp grp cur
    exact ⟨grp.reverse, [], rfl⟩
  | cons p rest ih =>
    intro rank lp grp cur
    obtain ⟨tn, pts⟩ := p
    rw [regroupWalk_cons]
    by_cases h : pts = lp
    · rw [if_pos h]
      exact ih (rank + 1) lp (tn :: grp) cur
    · rw [if_neg h]
      exact ⟨grp.reverse, regroupWalk (rank + 1) pts [tn] rank rest, rfl⟩

theorem regroupWalk_chain (l : List (Int × Int)) :
    ∀ (rank lp : Int) (grp : List Int) (cur : Int),
      grp ≠ [] → rank = cur + (grp.length : Int) →
      rankChain (regroupWalk rank lp grp cur l)
      ∧ ∀ x ∈ regroupWalk rank lp grp cur l, x.2 ≠ [] := by
  induction l with
  | nil =>
    intro rank lp grp cur hne _
    refine ⟨trivial, ?_⟩
    intro x hx
    rw [regroupWalk_nil, List.mem_singleton] at hx
    rw [hx]
    simpa using hne
  | cons p rest ih =>
    intro rank lp grp cur hne hrank
    obtain ⟨tn, pts⟩ := p
    rw [regroupWalk_cons]
    by_cases h : pts = lp
    · rw [if_pos h]
      refine ih (rank + 1) lp (tn :: grp) cur (List.cons_ne_nil tn grp) ?_
      rw [List.length_cons]
      push_cast
      omega
    · rw [if_neg h]
      obtain ⟨hch, hne'⟩ := ih (rank + 1) pts [tn] rank (List.cons_ne_nil tn [])
        (by simp)
      obtain ⟨g, rest', heq⟩ := regroupWalk_first rest (rank + 1) pts [tn] rank
      rw [heq] at hch hne' ⊢
      constructor
      · refine ⟨?_, hch⟩
        rw [List.length_reverse]
        exact hrank
      · intro x hx
        rcases List.mem_cons.mp hx with h1 | h2
        · rw [h1]
          simpa using hne
        · exact hne' x h2

theorem regroupWalk_flatten (l : List (Int × Int)) :
    ∀ (rank lp : Int) (grp : List Int) (cur : Int),
      ((regroupWalk rank lp grp cur l).map Prod.snd).flatten =
        grp.reverse ++ l.map Prod.fst := by
  induction l with
  | nil =>
    intro rank lp grp cur
    simp [regroupWalk]
  | cons p rest ih =>
    intro rank lp grp cur
    obtain ⟨tn, pts⟩ := p
    rw [regroupWalk_cons]
    by_cases h : pts = lp
    · rw [if_pos h, ih]
      simp
    · rw [if_neg h, List.map_cons, List.flatten_cons, ih]
      simp

theorem regroup_chain (l : List (Int × Int)) :
    rankChain (regroup l) ∧ ∀ x ∈ regroup l, x.2 ≠ [] := by
  cases l with
  | nil =>
    refine ⟨trivial, ?_⟩
    intro x hx
    cases hx
  | cons p rest =>
    obtain ⟨tn, pts⟩ := p
    rw [regroup_cons]
    exact regroupWalk_chain rest 2 pts [tn] 1 (List.cons_ne_nil tn []) (by simp)

theorem regroup_flatten (l : List (Int × Int)) :
    ((regroup l).map Prod.snd).flatten = l.map Prod.fst := by
  cases l with
  | nil => rfl
  | cons p rest =>
    obtain ⟨tn, pts⟩ := p
    rw [regroup_cons, regroupWalk_flatten]
    simp

theorem regroup_head (l : List (Int × Int)) (h : l ≠ []) :
    ((regroup l).map Prod.fst).head? = some 1 := by
  cases l with
  | nil => exact absurd rfl h
  | cons p rest =>
    obtain ⟨tn, pts⟩ := p
    rw [regroup_cons]
    obtain ⟨g, rest', heq⟩ := regroupWalk_first rest 2 pts [tn] 1
    rw [heq]
    rfl

theorem rankChain_chain_lt (l : List (Int × List Int)) (hc : rankChain l)
    (hne : ∀ x ∈ l, x.2 ≠ []) : List.Chain' (fun a b => a.1 < b.1) l := by
  induction l with
  | nil => exact List.chain'_nil
  | cons a rest ih =>
    cases rest with
    | nil => exact List.chain'_singleton a
    | cons b rest' =>
      obtain ⟨heq, hch⟩ := hc
      refine List.chain'_cons.mpr ⟨?_, ih hch (fun x hx => hne x (List.mem_cons_of_mem a hx))⟩
      rw [heq]
      have hlen : a.2.length ≠ 0 := by
        intro h0
        exact hne a (List.mem_cons_self a _) (List.length_eq_zero.mp h0)
      have hpos : 0 < (a.2.length : Int) := by
        exact_mod_cast Nat.pos_of_ne_zero hlen
      omega

theorem regroupWalk_groups (l : List (Int × Int)) :
    ∀ (rank lp : Int) (grp : List Int) (cur : Int),
      l.Sorted rankRel → (∀ x ∈ l, x.2 ≤ lp) →
      (∀ x ∈ grp, x ∈ headGroup (regroupWalk rank lp grp cur l))
      ∧ (∀ tn p, (tn, p) ∈ l → p = lp →
          tn ∈ headGroup (regroupWalk rank lp grp cur l))
      ∧ (∀ t1 t2 p, (t1, p) ∈ l → (t2, p) ∈ l → p ≠ lp →
          ∃ rg ∈ regroupWalk rank lp grp cur l, t1 ∈ rg.2 ∧ t2 ∈ rg.2) := by
  induction l with
  | nil =>
    intro rank lp grp cur _ _
    refine ⟨?_, ?_, ?_⟩
    · intro x hx
      simpa [regroupWalk, headGroup] using List.mem_reverse.mpr hx
    · intro tn p h
      cases h
    · intro t1 t2 p h
      cases h
  | cons q rest ih =>
    intro rank lp grp cur hs hle
    obtain ⟨tn0, p0⟩ := q
    rw [List.sorted_cons] at hs
    obtain ⟨hhd, hrest⟩ := hs
    rw [regroupWalk_cons]
    by_cases h : p0 = lp
    · rw [if_pos h]
      obtain ⟨ihc, iha, ihb⟩ := ih (rank + 1) lp (tn0 :: grp) cur hrest
        (fun x hx => hle x (List.mem_cons_of_mem _ hx))
      refine ⟨?_, ?_, ?_⟩
      · intro x hx
        exact ihc x (List.mem_cons_of_mem _ hx)
      · intro tn p hmem hp
        rcases List.mem_cons.mp hmem with h1 | h2
        · have htn : tn = tn0 := ((Prod.mk.injEq ..).mp h1).1
          rw [htn]
          exact ihc tn0 (List.mem_cons_self _ _)
        · exact iha tn p h2 hp
      · intro t1 t2 p h1 h2 hp
        have m1 : (t1, p) ∈ rest := by
          rcases List.mem_cons.mp h1 with e1 | m1
          · exact absurd (((Prod.mk.injEq ..).mp e1).2.trans h) hp
          · exact m1
        have m2 : (t2, p) ∈ rest := by
          rcases List.mem_cons.mp h2 with e2 | m2
          · exact absurd (((Prod.mk.injEq ..).mp e2).2.trans h) hp
          · exact m2
        exact ihb t1 t2 p m1 m2 hp
    · rw [if_neg h]
      have hp0 : p0 ≤ lp := hle _ (List.mem_cons_self _ _)
      have hp0lt : p0 < lp := lt_of_le_of_ne hp0 h
      obtain ⟨ihc, iha, ihb⟩ := ih (rank + 1) p0 [tn0] rank hrest (fun x hx => hhd x hx)
      obtain ⟨g, rest', heq⟩ := regroupWalk_first rest (rank + 1) p0 [tn0] rank
      refine ⟨?_, ?_, ?_⟩
      · intro x hx
        simpa [headGroup] using List.mem_reverse.mpr hx
      · intro tn p hmem hplp
        exfalso
        rcases List.mem_cons.mp hmem with e1 | m1
        · exact h ((((Prod.mk.injEq ..).mp e1).2.symm).trans hplp)
        · have hrel := hhd (tn, p) m1
          have : p ≤ p0 := hrel
          rw [hplp] at this
          exact absurd this (not_le_of_lt hp0lt)
      · intro t1 t2 p h1 h2 hplp
        have hmemg : ∀ tx, (tx, p) ∈ (tn0, p0) :: rest → p = p0 →
            tx ∈ headGroup (regroupWalk (rank + 1) p0 [tn0] rank rest) := by
          intro tx hmem hpp0
          rcases List.mem_cons.mp hmem with e1 | m1
          · have htx : tx = tn0 := ((Prod.mk.injEq ..).mp e1).1
            rw [htx]
            exact ihc tn0 (List.mem_cons_self _ _)
          · exact iha tx p m1 hpp0
        by_cases hpp0 : p = p0
        · have h1' := hmemg t1 h1 hpp0
          have h2' := hmemg t2 h2 hpp0
          rw [heq] at h1' h2'
          refine ⟨(rank, g), ?_, h1', h2'⟩
          rw [heq]
          exact List.mem_cons_of_mem _ (List.mem_cons_self _ _)
        · have m1 : (t1, p) ∈ rest := by
            rcases List.mem_cons.mp h1 with e1 | m1
            · exact absurd (((Prod.mk.injEq ..).mp e1).2) hpp0
            · exact m1
          have m2 : (t2, p) ∈ rest := by
            rcases List.mem_cons.mp h2 with e2 | m2
            · exact absurd (((Prod.mk.injEq ..).mp e2).2) hpp0
            · exact m2
          obtain ⟨rg, hrg, ht1, ht2⟩ := ihb t1 t2 p m1 m2 hpp0
          exact ⟨rg, List.mem_cons_of_mem _ hrg, ht1, ht2⟩

/-- On a points-sorted list, two pairs with the same points value end up
in the same group of the rearrangement. -/
theorem regroup_same_group (l : List (Int × Int)) (hs : l.Sorted rankRel) :
    ∀ t1 t2 p, (t1, p) ∈ l → (t2, p) ∈ l →
      ∃ rg ∈ regroup l, t1 ∈ rg.2 ∧ t2 ∈ rg.2 := by
  cases l with
  | nil =>
    intro t1 t2 p h
    cases h
  | cons q rest =>
    obtain ⟨tn0, p0⟩ := q
    rw [List.sorted_cons] at hs
    obtain ⟨hhd, hrest⟩ := hs
    intro t1 t2 p h1 h2
    rw [regroup_cons]
    obtain ⟨ihc, iha, ihb⟩ := regroupWalk_groups rest 2 p0 [tn0] 1 hrest
      (fun x hx => hhd x hx)
    obtain ⟨g, rest', heq⟩ := regroupWalk_first rest 2 p0 [tn0] 1
    by_cases hp : p = p0
    · have hhg : ∀ tx, (tx, p) ∈ (tn0, p0) :: rest →
          tx ∈ headGroup (regroupWalk 2 p0 [tn0] 1 rest) := by
        intro tx hmem
        rcases List.mem_cons.mp hmem with e1 | m1
        · have htx : tx = tn0 := ((Prod.mk.injEq ..).mp e1).1
          rw [htx]
          exact ihc tn0 (List.mem_cons_self _ _)
        · exact iha tx p m1 hp
      have h1' := hhg t1 h1
      have h2' := hhg t2 h2
      rw [heq] at h1' h2'
      refine ⟨(1, g), ?_, h1', h2'⟩
      rw [heq]
      exact List.mem_cons_self _ _
    · have m1 : (t1, p) ∈ rest := by
        rcases List.mem_cons.mp h1 with e1 | m1
        · exact absurd (((Prod.mk.injEq ..).mp e1).2) hp
        · exact m1
      have m2 : (t2, p) ∈ rest := by
        rcases List.mem_cons.mp h2 with e2 | m2
        · exact absurd (((Prod.mk.injEq ..).mp e2).2) hp
        · exact m2
      exact ihb t1 t2 p m1 m2 hp

theorem get_ranking_points_length (sp : List (Int × Int)) (N : Int) :
    (get_ranking_points sp N).length = sp.length := by
  unfold get_ranking_points
  rw [rankWalk_length]
  exact (sortByPointsDesc_perm sp).length_eq

theorem get_ranking_points_map_fst (sp : List (Int × Int)) (N : Int) :
    (get_ranking_points sp N).map Prod.fst = (sortByPointsDesc sp).map Prod.fst := by
  unfold get_ranking_points
  exact rankWalk_map_fst _ N 0 none

theorem enum1_map_fst (l : List Team) :
    ∀ n : Int, (enum1 n l).map Prod.fst = intRange n l.length := by
  induction l with
  | nil =>
    intro n
    rfl
  | cons tm ts ih =>
    intro n
    simp only [enum1, List.map_cons, List.length_cons, intRange, ih]

theorem enum1_length (l : List Team) : ∀ n : Int, (enum1 n l).length = l.length := by
  induction l with
  | nil =>
    intro n
    rfl
  | cons tm ts ih =>
    intro n
    simp only [enum1, List.length_cons, ih]

theorem final_totals_map_fst (t : Tournament) :
    t.final_totals.map Prod.fst = t.team_nums := by
  unfold Tournament.final_totals Tournament.team_nums
  rw [List.map_map]
  exact enum1_map_fst t.teams 1

theorem final_totals_length (t : Tournament) :
    t.final_totals.length = t.teams.length := by
  unfold Tournament.final_totals
  rw [List.length_map]
  exact enum1_length t.teams 1

theorem final_sorted_ne_nil (t : Tournament) (hne : t.teams ≠ []) :
    sortByPointsDesc (get_ranking_points t.final_totals t.team_count) ≠ [] := by
  intro hnil
  have hlen : (sortByPointsDesc (get_ranking_points t.final_totals t.team_count)).length =
      t.teams.length := by
    rw [(sortByPointsDesc_perm _).length_eq, get_ranking_points_length, final_totals_length]
  rw [hnil] at hlen
  exact hne (List.length_eq_zero.mp hlen.symm)

/-- C3: `get_final_ranking` feeds the per-team combined totals (robotics
final rank + research rank + jury rank + scholar bonus) through the
ranking-points algorithm, groups the points-sorted result into
`(rank, [team_numbers])` entries where tied teams share an entry, the
first entry has rank 1, and each rank advances by the previous group
size; the 3-team example groups as `[(1, [1, 2]), (3, [3])]`. -/
theorem final_ranking_structure :
    (∀ t : Tournament,
        t.get_final_ranking =
          regroup (sortByPointsDesc (get_ranking_points t.final_totals t.team_count))
        ∧ rankChain t.get_final_ranking
        ∧ (t.teams ≠ [] → (t.get_final_ranking.map Prod.fst).head? = some 1)
        ∧ (∀ t1 t2 p,
            (t1, p) ∈ sortByPointsDesc (get_ranking_points t.final_totals t.team_count) →
            (t2, p) ∈ sortByPointsDesc (get_ranking_points t.final_totals t.team_count) →
            ∃ rg ∈ t.get_final_ranking, t1 ∈ rg.2 ∧ t2 ∈ rg.2))
    ∧ regroup (sortByPointsDesc (get_ranking_points [(1, 10), (2, 10), (3, 5)] 3)) =
        [(1, [1, 2]), (3, [3])] := by
  refine ⟨?_, by decide⟩
  intro t
  refine ⟨rfl, ?_, ?_, ?_⟩
  · show rankChain (regroup (sortByPointsDesc (get_ranking_points t.final_totals t.team_count)))
    exact (regroup_chain _).1
  · intro hne
    show ((regroup (sortByPointsDesc
        (get_ranking_points t.final_totals t.team_count))).map Prod.fst).head? = some 1
    exact regroup_head _ (final_sorted_ne_nil t hne)
  · intro t1 t2 p h1 h2
    show ∃ rg ∈ regroup (sortByPointsDesc (get_ranking_points t.final_totals t.team_count)),
      t1 ∈ rg.2 ∧ t2 ∈ rg.2
    exact regroup_same_group _ (sortByPointsDesc_sorted _) t1 t2 p h1 h2

/-- C3 witness: a one-team tournament's final ranking starts at rank 1. -/
theorem final_ranking_structure_witness :
    ([Team.mk ("A") 3] : List Team) ≠ []
    ∧ ((({ Tournament.new [0] with teams := [Team.mk ("A") 3] } :
          Tournament).get_final_ranking).map Prod.fst).head? = some 1 :=
  ⟨by decide,
    (final_ranking_structure.1 { Tournament.new [0] with teams := [Team.mk ("A") 3] }).2.2.1
      (by decide)⟩

/-- C10: with at least one registered team, the team-number lists of
`get_final_ranking` together form a permutation of the registered team
numbers `[1, team_count]` (each appears exactly once), the ranks are
strictly increasing, and the first entry has rank 1 — regardless of which
scores have been recorded. -/
theorem final_ranking_partition (t : Tournament) (h : t.teams ≠ []) :
    ((t.get_final_ranking.map Prod.snd).flatten).Perm t.team_nums
    ∧ List.Chain' (fun a b => a.1 < b.1) t.get_final_ranking
    ∧ (t.get_final_ranking.map Prod.fst).head? = some 1 := by
  refine ⟨?_, ?_, ?_⟩
  · have hflat : ((t.get_final_ranking.map Prod.snd).flatten) =
        (sortByPointsDesc (get_ranking_points t.final_totals t.team_count)).map Prod.fst :=
      regroup_flatten _
    rw [hflat]
    have h2 : ((sortByPointsDesc (get_ranking_points t.final_totals t.team_count)).map
        Prod.fst).Perm ((get_ranking_points t.final_totals t.team_count).map Prod.fst) :=
      (sortByPointsDesc_perm _).map Prod.fst
    refine h2.trans ?_
    rw [get_ranking_points_map_fst]
    refine ((sortByPointsDesc_perm _).map Prod.fst).trans ?_
    rw [final_totals_map_fst]
  · show List.Chain' (fun a b => a.1 < b.1)
      (regroup (sortByPointsDesc (get_ranking_points t.final_totals t.team_count)))
    exact rankChain_chain_lt _ (regroup_chain _).1 (regroup_chain _).2
  · show ((regroup (sortByPointsDesc
        (get_ranking_points t.final_totals t.team_count))).map Prod.fst).head? = some 1
    exact regroup_head _ (final_sorted_ne_nil t h)

/-- C10 witness: a one-team tournament with no scores has strictly
increasing ranks in its final ranking. -/
theorem final_ranking_partition_witness :
    ([Team.mk ("A") 3] : List Team) ≠ []
    ∧ List.Chain' (fun a b => a.1 < b.1)
        ({ Tournament.new [0] with teams := [Team.mk ("A") 3] } :
          Tournament).get_final_ranking :=
  ⟨by decide,
    (final_ranking_partition { Tournament.new [0] with teams := [Team.mk ("A") 3] }
      (by decide)).2.1⟩

theorem scoreFromDict_as_dict (tag : ScoreType) (v : ScoreValue)
    (h : v.isInstance tag = true) : scoreFromDict tag v.as_dict = some v := by
  cases v with
  | robotics w tt c m =>
    cases tag with
    | robotics u =>
      have hw : w = u := by simpa [ScoreValue.isInstance] using h
      subst hw
      rfl
    | research => simp [ScoreValue.isInstance] at h
    | jury => simp [ScoreValue.isInstance] at h
  | research s =>
    cases tag with
    | robotics u => simp [ScoreValue.isInstance] at h
    | research => rfl
    | jury => simp [ScoreValue.isInstance] at h
  | jury s =>
    cases tag with
    | robotics u => simp [ScoreValue.isInstance] at h
    | research => simp [ScoreValue.isInstance] at h
    | jury => rfl

theorem add_team_score_ok (r : Round) (k : Int) (v : ScoreValue)
    (h : v.isInstance r.score_type = true) :
    r.add_team_score k (some v) = .ok { r with scores := dictInsert k v r.scores } := by
  simp [Round.add_team_score, h]

theorem dictInsert_fresh (l : List (Int × ScoreValue)) (k : Int) (v : ScoreValue)
    (h : ∀ p ∈ l, p.1 ≠ k) : dictInsert k v l = l ++ [(k, v)] := by
  have hany : l.any (fun p => p.1 == k) = false := by
    rw [List.any_eq_false]
    intro p hp
    simpa using h p hp
  unfold dictInsert
  rw [hany]
  simp

theorem addScoresFromDict_nil (tag : ScoreType) (r : Round) :
    addScoresFromDict tag r [] = some r := rfl

theorem addScoresFromDict_cons_ok (tag : ScoreType) (r : Round) (k : Int)
    (sd : ScoreDict) (rest : List (Int × ScoreDict)) (v : ScoreValue) (r' : Round)
    (h1 : scoreFromDict tag sd = some v)
    (h2 : r.add_team_score k (some v) = .ok r') :
    addScoresFromDict tag r ((k, sd) :: rest) = addScoresFromDict tag r' rest := by
  simp only [addScoresFromDict, h1, h2]

theorem addScoresFromDict_roundtrip (tag : ScoreType) (l : List (Int × ScoreValue)) :
    ∀ acc : Round, acc.score_type = tag →
      (∀ p ∈ l, p.2.isInstance tag = true) →
      (l.map Prod.fst).Nodup →
      (∀ p ∈ l, ∀ q ∈ acc.scores, q.1 ≠ p.1) →
      addScoresFromDict tag acc (l.map (fun p => (p.1, p.2.as_dict))) =
        some (Round.mk tag (acc.scores ++ l)) := by
  induction l with
  | nil =>
    intro acc htag _ _ _
    subst htag
    rw [List.map_nil, addScoresFromDict_nil, List.append_nil]
  | cons p rest ih =>
    intro acc htag hinst hnodup hdisj
    obtain ⟨k, v⟩ := p
    subst htag
    have hv : v.isInstance acc.score_type = true := hinst (k, v) (List.mem_cons_self _ _)
    have hfresh : dictInsert k v acc.scores = acc.scores ++ [(k, v)] :=
      dictInsert_fresh _ _ _ (fun q hq => hdisj (k, v) (List.mem_cons_self _ _) q hq)
    have hnodup2 : (k :: rest.map Prod.fst).Nodup := by
      rw [List.map_cons] at hnodup
      exact hnodup
    have hnd := List.nodup_cons.mp hnodup2
    rw [List.map_cons,
      addScoresFromDict_cons_ok acc.score_type acc k v.as_dict
        (rest.map (fun p => (p.1, p.2.as_dict))) v _
        (scoreFromDict_as_dict _ v hv) (add_team_score_ok acc k v hv)]
    have hacc : ({ acc with scores := dictInsert k v acc.scores } : Round) =
        { acc with scores := acc.scores ++ [(k, v)] } := by
      rw [hfresh]
    rw [hacc]
    have hdisj' : ∀ p ∈ rest, ∀ q ∈ acc.scores ++ [(k, v)], q.1 ≠ p.1 := by
      intro p hp q hq
      rcases List.mem_append.mp hq with hq1 | hq2
      · exact hdisj p (List.mem_cons_of_mem _ hp) q hq1
      · rw [List.mem_singleton] at hq2
        rw [hq2]
        intro he
        apply hnd.1
        have he2 : k = p.1 := he
        rw [he2]
        exact List.mem_map_of_mem Prod.fst hp
    have ihres := ih { acc with scores := acc.scores ++ [(k, v)] } rfl
      (fun p hp => hinst p (List.mem_cons_of_mem _ hp)) hnd.2 hdisj'
    rw [ihres, List.append_assoc, List.singleton_append]

theorem round_as_dict_roundtrip (r : Round) (tag : ScoreType)
    (htag : r.score_type = tag) (hwf : r.wf) :
    addScoresFromDict tag (Round.mk tag []) r.as_dict = some r := by
  subst htag
  have hmain := addScoresFromDict_roundtrip r.score_type r.scores
    (Round.mk r.score_type []) rfl (fun p hp => hwf.2 p hp) hwf.1
    (by intro p _ q hq; cases hq)
  have hdict : r.as_dict = r.scores.map (fun p => (p.1, p.2.as_dict)) := rfl
  rw [hdict, hmain, List.nil_append]

theorem buildRounds_roundtrip (vs : List Nat) :
    ∀ (rounds : List Round) (pre : List (List (Int × ScoreDict))) (n : Nat),
      n = pre.length + 1 →
      vs.length = rounds.length →
      (∀ q ∈ vs.zip rounds, q.2.score_type = ScoreType.robotics q.1 ∧ q.2.wf) →
      buildRounds (pre ++ rounds.map Round.as_dict) n vs = some rounds := by
  induction vs with
  | nil =>
    intro rounds pre n _ hlen _
    cases rounds with
    | nil => rfl
    | cons r rs => cases hlen
  | cons v vs' ih =>
    intro rounds pre n hn hlen hzip
    cases rounds with
    | nil => cases hlen
    | cons r rounds' =>
      have hget : (pre ++ (r :: rounds').map Round.as_dict).get? (n - 1) =
          some r.as_dict := by
        rw [hn, Nat.add_sub_cancel, List.get?_append_right (le_refl pre.length),
          Nat.sub_self]
        rfl
      have hzr := hzip (v, r) (by rw [List.zip_cons_cons]; exact List.mem_cons_self _ _)
      have haddr : addScoresFromDict (ScoreType.robotics v)
          (Round.mk (ScoreType.robotics v) []) r.as_dict = some r :=
        round_as_dict_roundtrip r _ hzr.1 hzr.2
      have ihres := ih rounds' (pre ++ [r.as_dict]) (n + 1)
        (by rw [List.length_append, List.length_singleton, hn])
        (Nat.succ.inj hlen)
        (fun q hq => hzip q (by rw [List.zip_cons_cons]; exact List.mem_cons_of_mem _ hq))
      rw [List.append_assoc, List.singleton_append] at ihres
      rw [List.map_cons] at hget ⊢
      simp only [buildRounds, hget, haddr, ihres]

theorem tournament_roundtrip (t : Tournament) (hwf : t.wf) :
    (Tournament.new t.robotics_score_types).from_dict t.as_dict = some t := by
  obtain ⟨types, teams, planning, rrounds, research, jury⟩ := t
  obtain ⟨hlen, hzip, hrt, hrw, hjt, hjw⟩ := hwf
  have hbuild := buildRounds_roundtrip types rrounds [] 1 rfl hlen hzip
  rw [List.nil_append] at hbuild
  have hres := round_as_dict_roundtrip research ScoreType.research hrt hrw
  have hjur := round_as_dict_roundtrip jury ScoreType.jury hjt hjw
  have hteams : teams.map (fun p => Team.mk p.name p.level) = teams :=
    List.map_id' teams
  simp only [Tournament.from_dict, Tournament.as_dict, Tournament.new,
    Tournament.load_teams, hbuild, hres, hjur, hteams]

/-- C5: for every well-formed tournament, `from_dict` applied on a fresh
tournament with the same robotics score types to `as_dict`'s output
succeeds and yields a tournament whose `get_final_ranking()` equals the
original's. -/
theorem from_dict_as_dict_final_ranking (t : Tournament) (hwf : t.wf) :
    ((Tournament.new t.robotics_score_types).from_dict t.as_dict).map
      Tournament.get_final_ranking = some t.get_final_ranking := by
  rw [tournament_roundtrip t hwf]
  rfl

/-- C5 witness: the round-trip reproduces the final ranking of a concrete
two-team tournament with recorded scores. -/
theorem from_dict_as_dict_final_ranking_witness :
    sampleTournament.wf
    ∧ ((Tournament.new sampleTournament.robotics_score_types).from_dict
        sampleTournament.as_dict).map Tournament.get_final_ranking =
      some sampleTournament.get_final_ranking :=
  ⟨by unfold Tournament.wf Round.wf; decide,
    from_dict_as_dict_final_ranking sampleTournament
      (by unfold Tournament.wf Round.wf; decide)⟩

end PJC
